import Mathlib

/-!
Verification of the `limon-core` repository: a Lean model of the
interval-indexed scheduling registry (`src/schedule.rs`) and of the
measurement dispatch protocol (`src/monitor/measure.rs` together with the
HTTP and ping collectors), with theorems settling the behavioural claims
about them.

Modelling conventions:
* Rust `HashMap` is modelled as an association list with unique keys
  (uniqueness is part of the reachable-state invariant), `HashSet` as a
  duplicate-free list.  Iteration order of a Rust hash table is
  unspecified; the model fixes insertion order, which is immaterial for
  the membership and multiplicity statements proved here.
* Rust `i64`/`i32`/`u32`/`u16` arithmetic is modelled on `Int`/`Nat`,
  with `Int.tdiv` for the truncating `i64` division and explicit
  `% 65536` / `Int.emod _ 65536` where the source casts with `as u16`.
* A Rust panic unwinding out of a function is modelled by the
  `Outcome.diverges` constructor (for the monitor code) or by an
  `Option`-valued result (`none` = panic) for `Schedule::get_due`,
  whose only panic source is division by zero.
-/

set_option autoImplicit false
set_option linter.unusedSectionVars false
set_option linter.unusedVariables false

namespace Limon

universe u v

/-! ## Association-list model of `HashMap` and list model of `HashSet` -/

/-- Lookup in an association list; models `HashMap::get`. -/
def alLookup {α : Type u} {β : Type v} [DecidableEq α] (k : α) : List (α × β) → Option β
  | [] => none
  | (a, b) :: t => if a = k then some b else alLookup k t

/-- Insert-or-replace in an association list; models `HashMap::insert`
(and mutation through `HashMap::get_mut`). -/
def alInsert {α : Type u} {β : Type v} [DecidableEq α] (k : α) (v : β) :
    List (α × β) → List (α × β)
  | [] => [(k, v)]
  | (a, b) :: t => if a = k then (k, v) :: t else (a, b) :: alInsert k v t

/-- Remove a key from an association list; models `HashMap::remove`. -/
def alErase {α : Type u} {β : Type v} [DecidableEq α] (k : α) :
    List (α × β) → List (α × β)
  | [] => []
  | (a, b) :: t => if a = k then t else (a, b) :: alErase k t

/-- Add an element to a duplicate-free list; models `HashSet::insert`. -/
def setInsert {α : Type u} [DecidableEq α] (x : α) (s : List α) : List α :=
  if x ∈ s then s else s ++ [x]

/-- Remove an element from a duplicate-free list; models `HashSet::remove`. -/
def setErase {α : Type u} [DecidableEq α] (x : α) : List α → List α
  | [] => []
  | a :: t => if a = x then t else a :: setErase x t

/-! ## The `Schedulable` trait and the `Schedule` structure (`src/schedule.rs`) -/

/-- The `Into<i64>` bound required of `Schedulable::Interval`
(and of `Schedulable::Id`, whose conversion the schedule never uses). -/
class IntoInt (α : Type u) where
  toInt : α → Int

/-- The `Schedulable` trait: a unique identifier and an interval. -/
class Schedulable (Item : Type u) (Id Interval : outParam (Type u)) where
  get_id : Item → Id
  get_interval : Item → Interval

/-- The `Schedule` struct: items indexed by id, and ids grouped by interval. -/
structure Schedule (Id Interval Item : Type u) where
  items : List (Id × Item)
  intervals : List (Interval × List Id)

variable {Id Interval Item : Type u}
variable [DecidableEq Id] [DecidableEq Interval] [IntoInt Interval]
variable [Schedulable Item Id Interval]

/-- Models `Schedule::new`. -/
def Schedule.new : Schedule Id Interval Item := ⟨[], []⟩

/-- Models `Schedule::get`. -/
def Schedule.get (s : Schedule Id Interval Item) (id : Id) : Option Item :=
  alLookup id s.items

/-- The `((from + interval - 1) / interval) * interval` computation of
`Schedule::get_due`, with Rust's truncating `i64` division. -/
def nextCheck (f k : Int) : Int :=
  ((f + k - 1).tdiv k) * k

/-- The loop body of `Schedule::get_due` over the interval buckets.
`none` models the division-by-zero panic reached when some bucket key
converts to `0`; otherwise the due buckets contribute their members,
resolved through `items`, in iteration order. -/
def dueAux (items : List (Id × Item)) (f t : Int) :
    List (Interval × List Id) → Option (List Item)
  | [] => some []
  | (k, ids) :: rest =>
    if IntoInt.toInt k = 0 then none
    else
      match dueAux items f t rest with
      | none => none
      | some acc =>
        if nextCheck f (IntoInt.toInt k) ≤ t then
          some (ids.filterMap (fun id => alLookup id items) ++ acc)
        else
          some acc

/-- Models `Schedule::get_due` (arguments `from`, `to` are called `f`, `t`
because `from` is reserved in Lean). -/
def Schedule.get_due (s : Schedule Id Interval Item) (f t : Int) : Option (List Item) :=
  dueAux s.items f t s.intervals

/-- Models `Schedule::insert`: adds the id to the bucket of the item's interval
(creating the bucket if absent) and replaces the entry in `items`.
Exactly as in the source, no entry of any other bucket is touched. -/
def Schedule.insert (s : Schedule Id Interval Item) (item : Item) :
    Schedule Id Interval Item :=
  let id := Schedulable.get_id item
  let interval := Schedulable.get_interval item
  let intervals :=
    match alLookup interval s.intervals with
    | some ids_set => alInsert interval (setInsert id ids_set) s.intervals
    | none => alInsert interval [id] s.intervals
  let items := alInsert id item s.items
  ⟨items, intervals⟩

/-- Models `Schedule::remove`: drops the item and removes its id from the bucket
keyed by the removed item's interval, pruning the bucket if it became
empty (`if set.remove(&id) && set.is_empty()`). -/
def Schedule.remove (s : Schedule Id Interval Item) (id : Id) :
    Schedule Id Interval Item :=
  match alLookup id s.items with
  | none => s
  | some item =>
    let items := alErase id s.items
    let interval := Schedulable.get_interval item
    let intervals :=
      match alLookup interval s.intervals with
      | none => s.intervals
      | some set =>
        if id ∈ set then
          if setErase id set = [] then alErase interval s.intervals
          else alInsert interval (setErase id set) s.intervals
        else s.intervals
    ⟨items, intervals⟩

/-! ## Operation sequences and reachable states -/

/-- A schedule operation: one `insert` or one `remove` call. -/
inductive Op (Id Item : Type u)
  | ins (item : Item)
  | rem (id : Id)

/-- Apply one operation. -/
def Schedule.step (s : Schedule Id Interval Item) : Op Id Item → Schedule Id Interval Item
  | .ins item => s.insert item
  | .rem id => s.remove id

/-- Run a sequence of operations from the empty schedule. -/
def Schedule.run (ops : List (Op Id Item)) : Schedule Id Interval Item :=
  ops.foldl Schedule.step Schedule.new

/-- A state is reachable when some sequence of insert/remove operations
produces it from the empty schedule. -/
def Schedule.Reachable (s : Schedule Id Interval Item) : Prop :=
  ∃ ops : List (Op Id Item), Schedule.run ops = s

/-! ## The concrete instantiation used by the repository's own tests -/

/-- The `Task` item of the tests in `src/schedule.rs` (and the shape of
`Monitor`'s `Schedulable` implementation): integer id and interval. -/
structure Task where
  id : Int
  interval : Int
deriving DecidableEq

instance : IntoInt Int := ⟨fun n => n⟩

instance : Schedulable Task Int Int := ⟨Task.id, Task.interval⟩

/-! ## Lemmas about the container helpers -/

section ContainerLemmas

variable {α : Type u} {β : Type v} [DecidableEq α]

theorem alLookup_alInsert_self (k : α) (v : β) (l : List (α × β)) :
    alLookup k (alInsert k v l) = some v := by
  induction l with
  | nil => simp [alInsert, alLookup]
  | cons p t ih =>
    obtain ⟨a, b⟩ := p
    by_cases h : a = k <;> simp [alInsert, alLookup, h, ih]

theorem alLookup_alInsert_ne {k k' : α} (v : β) (l : List (α × β)) (h : k ≠ k') :
    alLookup k' (alInsert k v l) = alLookup k' l := by
  induction l with
  | nil => simp [alInsert, alLookup, h]
  | cons p t ih =>
    obtain ⟨a, b⟩ := p
    by_cases ha : a = k
    · subst ha
      simp [alInsert, alLookup, h, ih]
    · by_cases ha' : a = k' <;> simp [alInsert, alLookup, ha, ha', Ne.symm h, ih]

theorem alLookup_alErase_ne {k k' : α} (l : List (α × β)) (h : k ≠ k') :
    alLookup k' (alErase k l) = alLookup k' l := by
  induction l with
  | nil => simp [alErase]
  | cons p t ih =>
    obtain ⟨a, b⟩ := p
    by_cases ha : a = k
    · subst ha
      simp [alErase, alLookup, h, ih]
    · by_cases ha' : a = k' <;> simp [alErase, alLookup, ha, ha', Ne.symm h, ih]

theorem alLookup_eq_none_of_not_mem {k : α} {l : List (α × β)}
    (h : k ∉ l.map Prod.fst) : alLookup k l = none := by
  induction l with
  | nil => rfl
  | cons p t ih =>
    obtain ⟨a, b⟩ := p
    simp only [List.map_cons, List.mem_cons] at h
    push_neg at h
    simp [alLookup, Ne.symm h.1, ih h.2]

theorem alLookup_mem {k : α} {v : β} {l : List (α × β)}
    (h : alLookup k l = some v) : (k, v) ∈ l := by
  induction l with
  | nil => simp [alLookup] at h
  | cons p t ih =>
    obtain ⟨a, b⟩ := p
    by_cases ha : a = k
    · subst ha
      simp [alLookup] at h
      simp [h]
    · simp [alLookup, ha] at h
      exact List.mem_cons_of_mem _ (ih h)

theorem alLookup_mem_keys {k : α} {v : β} {l : List (α × β)}
    (h : alLookup k l = some v) : k ∈ l.map Prod.fst := by
  have := alLookup_mem h
  exact List.mem_map.mpr ⟨(k, v), this, rfl⟩

theorem alLookup_of_mem_nodup {k : α} {v : β} {l : List (α × β)}
    (hn : (l.map Prod.fst).Nodup) (h : (k, v) ∈ l) : alLookup k l = some v := by
  induction l with
  | nil => simp at h
  | cons p t ih =>
    obtain ⟨a, b⟩ := p
    simp only [List.map_cons, List.nodup_cons] at hn
    rcases List.mem_cons.mp h with heq | hmem
    · obtain ⟨rfl, rfl⟩ := Prod.mk.injEq .. ▸ heq
      simp [alLookup]
    · have hak : a ≠ k := by
        rintro rfl
        exact hn.1 (List.mem_map.mpr ⟨(a, v), hmem, rfl⟩)
      simp [alLookup, hak, ih hn.2 hmem]

theorem alLookup_alErase_self {k : α} {l : List (α × β)}
    (hn : (l.map Prod.fst).Nodup) : alLookup k (alErase k l) = none := by
  induction l with
  | nil => rfl
  | cons p t ih =>
    obtain ⟨a, b⟩ := p
    simp only [List.map_cons, List.nodup_cons] at hn
    by_cases ha : a = k
    · subst ha
      simp only [alErase, if_pos rfl]
      exact alLookup_eq_none_of_not_mem hn.1
    · simp [alErase, alLookup, ha, ih hn.2]

theorem mem_keys_alInsert {x k : α} (v : β) (l : List (α × β)) :
    x ∈ (alInsert k v l).map Prod.fst ↔ x = k ∨ x ∈ l.map Prod.fst := by
  induction l with
  | nil => simp [alInsert]
  | cons p t ih =>
    obtain ⟨a, b⟩ := p
    by_cases ha : a = k
    · subst ha
      simp [alInsert]
    · simp only [alInsert, if_neg ha, List.map_cons, List.mem_cons, ih]
      tauto

theorem alInsert_keys_nodup {k : α} {v : β} {l : List (α × β)}
    (h : (l.map Prod.fst).Nodup) : ((alInsert k v l).map Prod.fst).Nodup := by
  induction l with
  | nil => simp [alInsert]
  | cons p t ih =>
    obtain ⟨a, b⟩ := p
    simp only [List.map_cons, List.nodup_cons] at h
    by_cases ha : a = k
    · subst ha
      have hrw : alInsert a v ((a, b) :: t) = (a, v) :: t := by simp [alInsert]
      rw [hrw]
      simp only [List.map_cons, List.nodup_cons]
      exact ⟨h.1, h.2⟩
    · simp only [alInsert, if_neg ha, List.map_cons, List.nodup_cons]
      refine ⟨fun hc => ?_, ih h.2⟩
      rcases (mem_keys_alInsert v t).mp hc with rfl | hmem
      · exact ha rfl
      · exact h.1 hmem

theorem alErase_sublist (k : α) (l : List (α × β)) :
    List.Sublist (alErase k l) l := by
  induction l with
  | nil => simp [alErase]
  | cons p t ih =>
    obtain ⟨a, b⟩ := p
    by_cases ha : a = k
    · simp only [alErase, if_pos ha]
      exact List.sublist_cons_self (a, b) t
    · simpa [alErase, ha] using List.Sublist.cons₂ (a, b) ih

theorem alErase_keys_nodup {k : α} {l : List (α × β)}
    (h : (l.map Prod.fst).Nodup) : ((alErase k l).map Prod.fst).Nodup :=
  List.Nodup.sublist (List.Sublist.map Prod.fst (alErase_sublist k l)) h

theorem mem_setInsert {x a : α} {s : List α} :
    x ∈ setInsert a s ↔ x = a ∨ x ∈ s := by
  unfold setInsert
  by_cases h : a ∈ s
  · simp only [if_pos h]
    constructor
    · exact Or.inr
    · rintro (rfl | hx)
      · exact h
      · exact hx
  · simp [if_neg h, List.mem_append, or_comm]

theorem setInsert_nodup {a : α} {s : List α} (h : s.Nodup) : (setInsert a s).Nodup := by
  unfold setInsert
  by_cases ha : a ∈ s
  · simpa [if_pos ha] using h
  · simp [if_neg ha, List.nodup_append, h, ha]

theorem setInsert_ne_nil {a : α} {s : List α} : setInsert a s ≠ [] := by
  unfold setInsert
  by_cases ha : a ∈ s
  · simp only [if_pos ha]
    rintro rfl
    simp at ha
  · simp [if_neg ha]

theorem setErase_sublist (x : α) (s : List α) : List.Sublist (setErase x s) s := by
  induction s with
  | nil => simp [setErase]
  | cons a t ih =>
    by_cases ha : a = x
    · simp only [setErase, if_pos ha]
      exact List.sublist_cons_self a t
    · simpa [setErase, ha] using List.Sublist.cons₂ a ih

theorem setErase_nodup {x : α} {s : List α} (h : s.Nodup) : (setErase x s).Nodup :=
  List.Nodup.sublist (setErase_sublist x s) h

theorem mem_setErase {x y : α} {s : List α} (hn : s.Nodup) :
    y ∈ setErase x s ↔ y ∈ s ∧ y ≠ x := by
  induction s with
  | nil => simp [setErase]
  | cons a t ih =>
    simp only [List.nodup_cons] at hn
    by_cases ha : a = x
    · subst ha
      simp only [setErase, if_pos rfl, List.mem_cons]
      constructor
      · intro hy
        refine ⟨Or.inr hy, ?_⟩
        rintro rfl
        exact hn.1 hy
      · rintro ⟨rfl | hy, hne⟩
        · exact absurd rfl hne
        · exact hy
    · simp only [setErase, if_neg ha, List.mem_cons, ih hn.2]
      constructor
      · rintro (rfl | ⟨hy, hne⟩)
        · exact ⟨Or.inl rfl, fun hc => ha hc⟩
        · exact ⟨Or.inr hy, hne⟩
      · rintro ⟨rfl | hy, hne⟩
        · exact Or.inl rfl
        · exact Or.inr ⟨hy, hne⟩

end ContainerLemmas

/-! ## Unfolding equations for the schedule operations -/

theorem Schedule.insert_items (s : Schedule Id Interval Item) (item : Item) :
    (s.insert item).items = alInsert (Schedulable.get_id item) item s.items := rfl

theorem Schedule.insert_intervals_of_some (s : Schedule Id Interval Item) (item : Item)
    (set : List Id)
    (hk : alLookup (Schedulable.get_interval item) s.intervals = some set) :
    (s.insert item).intervals =
      alInsert (Schedulable.get_interval item)
        (setInsert (Schedulable.get_id item) set) s.intervals := by
  simp only [Schedule.insert, hk]

theorem Schedule.insert_intervals_of_none (s : Schedule Id Interval Item) (item : Item)
    (hk : alLookup (Schedulable.get_interval item) s.intervals = none) :
    (s.insert item).intervals =
      alInsert (Schedulable.get_interval item) [Schedulable.get_id item] s.intervals := by
  simp only [Schedule.insert, hk]

theorem Schedule.remove_of_none (s : Schedule Id Interval Item) (id : Id)
    (h : alLookup id s.items = none) : s.remove id = s := by
  simp only [Schedule.remove, h]

theorem Schedule.remove_items (s : Schedule Id Interval Item) (id : Id) (item : Item)
    (h : alLookup id s.items = some item) :
    (s.remove id).items = alErase id s.items := by
  simp only [Schedule.remove, h]

theorem Schedule.remove_intervals_of_none (s : Schedule Id Interval Item) (id : Id)
    (item : Item) (h : alLookup id s.items = some item)
    (hk : alLookup (Schedulable.get_interval item) s.intervals = none) :
    (s.remove id).intervals = s.intervals := by
  simp only [Schedule.remove, h, hk]

theorem Schedule.remove_intervals_of_not_mem (s : Schedule Id Interval Item) (id : Id)
    (item : Item) (set : List Id) (h : alLookup id s.items = some item)
    (hk : alLookup (Schedulable.get_interval item) s.intervals = some set)
    (hmem : id ∉ set) :
    (s.remove id).intervals = s.intervals := by
  simp only [Schedule.remove, h, hk, if_neg hmem]

theorem Schedule.remove_intervals_of_prune (s : Schedule Id Interval Item) (id : Id)
    (item : Item) (set : List Id) (h : alLookup id s.items = some item)
    (hk : alLookup (Schedulable.get_interval item) s.intervals = some set)
    (hmem : id ∈ set) (hnil : setErase id set = []) :
    (s.remove id).intervals = alErase (Schedulable.get_interval item) s.intervals := by
  simp only [Schedule.remove, h, hk, if_pos hmem, if_pos hnil]

theorem Schedule.remove_intervals_of_update (s : Schedule Id Interval Item) (id : Id)
    (item : Item) (set : List Id) (h : alLookup id s.items = some item)
    (hk : alLookup (Schedulable.get_interval item) s.intervals = some set)
    (hmem : id ∈ set) (hnil : setErase id set ≠ []) :
    (s.remove id).intervals =
      alInsert (Schedulable.get_interval item) (setErase id set) s.intervals := by
  simp only [Schedule.remove, h, hk, if_pos hmem, if_neg hnil]

/-! ## The reachable-state invariant -/

/-- The invariant maintained by every reachable schedule state: unique
keys in both maps, duplicate-free non-empty buckets, `items` entries
keyed by `get_id`, and every live id a member of the bucket of its
item's current interval.  Note that nothing here forbids *stale* ids
lingering in other buckets; the replace-semantics results below show
`insert` does produce such states. -/
structure Inv (s : Schedule Id Interval Item) : Prop where
  items_keys_nodup : (s.items.map Prod.fst).Nodup
  intervals_keys_nodup : (s.intervals.map Prod.fst).Nodup
  buckets_nodup : ∀ k b, alLookup k s.intervals = some b → b.Nodup
  buckets_ne_nil : ∀ k b, alLookup k s.intervals = some b → b ≠ []
  key_matches : ∀ id item, alLookup id s.items = some item →
    Schedulable.get_id item = id
  live_in_bucket : ∀ id item, alLookup id s.items = some item →
    ∃ b, alLookup (Schedulable.get_interval item) s.intervals = some b ∧ id ∈ b

theorem inv_new : Inv (Schedule.new : Schedule Id Interval Item) := by
  refine ⟨?_, ?_, ?_, ?_, ?_, ?_⟩ <;> simp [Schedule.new, alLookup]

theorem Schedule.insert_inv {s : Schedule Id Interval Item} (hs : Inv s) (item : Item) :
    Inv (s.insert item) := by
  cases hk : alLookup (Schedulable.get_interval item) s.intervals with
  | none =>
    refine ⟨?_, ?_, ?_, ?_, ?_, ?_⟩
    · rw [Schedule.insert_items]
      exact alInsert_keys_nodup hs.items_keys_nodup
    · rw [Schedule.insert_intervals_of_none s item hk]
      exact alInsert_keys_nodup hs.intervals_keys_nodup
    · intro k' b hb
      rw [Schedule.insert_intervals_of_none s item hk] at hb
      by_cases hkk : Schedulable.get_interval item = k'
      · subst hkk
        rw [alLookup_alInsert_self] at hb
        rw [← Option.some_inj.mp hb]
        simp
      · rw [alLookup_alInsert_ne _ _ hkk] at hb
        exact hs.buckets_nodup k' b hb
    · intro k' b hb
      rw [Schedule.insert_intervals_of_none s item hk] at hb
      by_cases hkk : Schedulable.get_interval item = k'
      · subst hkk
        rw [alLookup_alInsert_self] at hb
        rw [← Option.some_inj.mp hb]
        simp
      · rw [alLookup_alInsert_ne _ _ hkk] at hb
        exact hs.buckets_ne_nil k' b hb
    · intro id' item' hb
      rw [Schedule.insert_items] at hb
      by_cases hid : Schedulable.get_id item = id'
      · subst hid
        rw [alLookup_alInsert_self] at hb
        rw [← Option.some_inj.mp hb]
      · rw [alLookup_alInsert_ne _ _ hid] at hb
        exact hs.key_matches id' item' hb
    · intro id' item' hb
      rw [Schedule.insert_items] at hb
      rw [Schedule.insert_intervals_of_none s item hk]
      by_cases hid : Schedulable.get_id item = id'
      · subst hid
        rw [alLookup_alInsert_self] at hb
        rw [← Option.some_inj.mp hb]
        exact ⟨[Schedulable.get_id item], alLookup_alInsert_self .., by simp⟩
      · rw [alLookup_alInsert_ne _ _ hid] at hb
        obtain ⟨b, hb1, hb2⟩ := hs.live_in_bucket id' item' hb
        by_cases hkk : Schedulable.get_interval item = Schedulable.get_interval item'
        · rw [← hkk, hk] at hb1
          cases hb1
        · refine ⟨b, ?_, hb2⟩
          rw [alLookup_alInsert_ne _ _ hkk]
          exact hb1
  | some set =>
    refine ⟨?_, ?_, ?_, ?_, ?_, ?_⟩
    · rw [Schedule.insert_items]
      exact alInsert_keys_nodup hs.items_keys_nodup
    · rw [Schedule.insert_intervals_of_some s item set hk]
      exact alInsert_keys_nodup hs.intervals_keys_nodup
    · intro k' b hb
      rw [Schedule.insert_intervals_of_some s item set hk] at hb
      by_cases hkk : Schedulable.get_interval item = k'
      · subst hkk
        rw [alLookup_alInsert_self] at hb
        rw [← Option.some_inj.mp hb]
        exact setInsert_nodup (hs.buckets_nodup _ set hk)
      · rw [alLookup_alInsert_ne _ _ hkk] at hb
        exact hs.buckets_nodup k' b hb
    · intro k' b hb
      rw [Schedule.insert_intervals_of_some s item set hk] at hb
      by_cases hkk : Schedulable.get_interval item = k'
      · subst hkk
        rw [alLookup_alInsert_self] at hb
        rw [← Option.some_inj.mp hb]
        exact setInsert_ne_nil
      · rw [alLookup_alInsert_ne _ _ hkk] at hb
        exact hs.buckets_ne_nil k' b hb
    · intro id' item' hb
      rw [Schedule.insert_items] at hb
      by_cases hid : Schedulable.get_id item = id'
      · subst hid
        rw [alLookup_alInsert_self] at hb
        rw [← Option.some_inj.mp hb]
      · rw [alLookup_alInsert_ne _ _ hid] at hb
        exact hs.key_matches id' item' hb
    · intro id' item' hb
      rw [Schedule.insert_items] at hb
      rw [Schedule.insert_intervals_of_some s item set hk]
      by_cases hid : Schedulable.get_id item = id'
      · subst hid
        rw [alLookup_alInsert_self] at hb
        rw [← Option.some_inj.mp hb]
        exact ⟨setInsert (Schedulable.get_id item) set, alLookup_alInsert_self ..,
          mem_setInsert.mpr (Or.inl rfl)⟩
      · rw [alLookup_alInsert_ne _ _ hid] at hb
        obtain ⟨b, hb1, hb2⟩ := hs.live_in_bucket id' item' hb
        by_cases hkk : Schedulable.get_interval item = Schedulable.get_interval item'
        · rw [← hkk, hk] at hb1
          have hbe : set = b := Option.some_inj.mp hb1
          subst hbe
          refine ⟨setInsert (Schedulable.get_id item) set, ?_,
            mem_setInsert.mpr (Or.inr hb2)⟩
          rw [← hkk, alLookup_alInsert_self]
        · refine ⟨b, ?_, hb2⟩
          rw [alLookup_alInsert_ne _ _ hkk]
          exact hb1

theorem Schedule.remove_inv {s : Schedule Id Interval Item} (hs : Inv s) (id : Id) :
    Inv (s.remove id) := by
  cases hit : alLookup id s.items with
  | none =>
    rw [Schedule.remove_of_none s id hit]
    exact hs
  | some item =>
    have hitems : (s.remove id).items = alErase id s.items :=
      Schedule.remove_items s id item hit
    have hlook : ∀ id' item', alLookup id' (s.remove id).items = some item' →
        id' ≠ id ∧ alLookup id' s.items = some item' := by
      intro id' item' hb
      rw [hitems] at hb
      by_cases hid : id = id'
      · subst hid
        rw [alLookup_alErase_self hs.items_keys_nodup] at hb
        cases hb
      · rw [alLookup_alErase_ne _ hid] at hb
        exact ⟨fun hc => hid hc.symm, hb⟩
    have hkn : ((s.remove id).items.map Prod.fst).Nodup := by
      rw [hitems]
      exact alErase_keys_nodup hs.items_keys_nodup
    have hkm : ∀ id' item', alLookup id' (s.remove id).items = some item' →
        Schedulable.get_id item' = id' := by
      intro id' item' hb
      exact hs.key_matches id' item' (hlook id' item' hb).2
    cases hk : alLookup (Schedulable.get_interval item) s.intervals with
    | none =>
      have hint : (s.remove id).intervals = s.intervals :=
        Schedule.remove_intervals_of_none s id item hit hk
      refine ⟨hkn, ?_, ?_, ?_, hkm, ?_⟩
      · rw [hint]; exact hs.intervals_keys_nodup
      · rw [hint]; exact hs.buckets_nodup
      · rw [hint]; exact hs.buckets_ne_nil
      · intro id' item' hb
        rw [hint]
        exact hs.live_in_bucket id' item' (hlook id' item' hb).2
    | some set =>
      have hsetnd : set.Nodup := hs.buckets_nodup _ set hk
      by_cases hmem : id ∈ set
      · by_cases hnil : setErase id set = []
        · have hint : (s.remove id).intervals =
              alErase (Schedulable.get_interval item) s.intervals :=
            Schedule.remove_intervals_of_prune s id item set hit hk hmem hnil
          refine ⟨hkn, ?_, ?_, ?_, hkm, ?_⟩
          · rw [hint]; exact alErase_keys_nodup hs.intervals_keys_nodup
          · intro k' b hb
            rw [hint] at hb
            by_cases hkk : Schedulable.get_interval item = k'
            · subst hkk
              rw [alLookup_alErase_self hs.intervals_keys_nodup] at hb
              cases hb
            · rw [alLookup_alErase_ne _ hkk] at hb
              exact hs.buckets_nodup k' b hb
          · intro k' b hb
            rw [hint] at hb
            by_cases hkk : Schedulable.get_interval item = k'
            · subst hkk
              rw [alLookup_alErase_self hs.intervals_keys_nodup] at hb
              cases hb
            · rw [alLookup_alErase_ne _ hkk] at hb
              exact hs.buckets_ne_nil k' b hb
          · intro id' item' hb
            obtain ⟨hne, hb'⟩ := hlook id' item' hb
            obtain ⟨b, hb1, hb2⟩ := hs.live_in_bucket id' item' hb'
            rw [hint]
            by_cases hkk : Schedulable.get_interval item = Schedulable.get_interval item'
            · exfalso
              rw [← hkk, hk] at hb1
              cases hb1
              have : id' ∈ setErase id set := (mem_setErase hsetnd).mpr ⟨hb2, hne⟩
              rw [hnil] at this
              simp at this
            · exact ⟨b, by rw [alLookup_alErase_ne _ hkk]; exact hb1, hb2⟩
        · have hint : (s.remove id).intervals =
              alInsert (Schedulable.get_interval item) (setErase id set) s.intervals :=
            Schedule.remove_intervals_of_update s id item set hit hk hmem hnil
          refine ⟨hkn, ?_, ?_, ?_, hkm, ?_⟩
          · rw [hint]; exact alInsert_keys_nodup hs.intervals_keys_nodup
          · intro k' b hb
            rw [hint] at hb
            by_cases hkk : Schedulable.get_interval item = k'
            · subst hkk
              rw [alLookup_alInsert_self] at hb
              cases hb
              exact setErase_nodup hsetnd
            · rw [alLookup_alInsert_ne _ _ hkk] at hb
              exact hs.buckets_nodup k' b hb
          · intro k' b hb
            rw [hint] at hb
            by_cases hkk : Schedulable.get_interval item = k'
            · subst hkk
              rw [alLookup_alInsert_self] at hb
              cases hb
              exact hnil
            · rw [alLookup_alInsert_ne _ _ hkk] at hb
              exact hs.buckets_ne_nil k' b hb
          · intro id' item' hb
            obtain ⟨hne, hb'⟩ := hlook id' item' hb
            obtain ⟨b, hb1, hb2⟩ := hs.live_in_bucket id' item' hb'
            rw [hint]
            by_cases hkk : Schedulable.get_interval item = Schedulable.get_interval item'
            · rw [← hkk, hk] at hb1
              cases hb1
              refine ⟨setErase id set, ?_, (mem_setErase hsetnd).mpr ⟨hb2, hne⟩⟩
              rw [← hkk, alLookup_alInsert_self]
            · exact ⟨b, by rw [alLookup_alInsert_ne _ _ hkk]; exact hb1, hb2⟩
      · have hint : (s.remove id).intervals = s.intervals :=
          Schedule.remove_intervals_of_not_mem s id item set hit hk hmem
        refine ⟨hkn, ?_, ?_, ?_, hkm, ?_⟩
        · rw [hint]; exact hs.intervals_keys_nodup
        · rw [hint]; exact hs.buckets_nodup
        · rw [hint]; exact hs.buckets_ne_nil
        · intro id' item' hb
          rw [hint]
          exact hs.live_in_bucket id' item' (hlook id' item' hb).2

theorem inv_step {s : Schedule Id Interval Item} (hs : Inv s) (op : Op Id Item) :
    Inv (s.step op) := by
  cases op with
  | ins item => exact Schedule.insert_inv hs item
  | rem id => exact Schedule.remove_inv hs id

theorem inv_foldl (ops : List (Op Id Item)) {s : Schedule Id Interval Item}
    (hs : Inv s) : Inv (ops.foldl Schedule.step s) := by
  induction ops generalizing s with
  | nil => exact hs
  | cons op rest ih => exact ih (inv_step hs op)

theorem inv_of_reachable {s : Schedule Id Interval Item} (h : s.Reachable) : Inv s := by
  obtain ⟨ops, rfl⟩ := h
  exact inv_foldl ops inv_new

/-! ## Characterisation of `get_due` -/

theorem dueAux_none_of_zero {items : List (Id × Item)} {f t : Int}
    {bs : List (Interval × List Id)} {k : Interval} {ids : List Id}
    (hmem : (k, ids) ∈ bs) (hz : IntoInt.toInt k = 0) :
    dueAux items f t bs = none := by
  induction bs with
  | nil => simp at hmem
  | cons p rest ih =>
    obtain ⟨k', ids'⟩ := p
    rcases List.mem_cons.mp hmem with heq | hmem'
    · obtain ⟨rfl, rfl⟩ := Prod.mk.injEq .. ▸ heq
      simp [dueAux, hz]
    · by_cases hz' : IntoInt.toInt k' = 0
      · simp [dueAux, hz']
      · simp [dueAux, hz', ih hmem']

theorem dueAux_isSome_of_ne_zero {items : List (Id × Item)} {f t : Int}
    {bs : List (Interval × List Id)}
    (h : ∀ k ids, (k, ids) ∈ bs → IntoInt.toInt k ≠ 0) :
    ∃ res, dueAux items f t bs = some res := by
  induction bs with
  | nil => exact ⟨[], rfl⟩
  | cons p rest ih =>
    obtain ⟨k, ids⟩ := p
    obtain ⟨acc, hacc⟩ := ih (fun k' ids' hm => h k' ids' (List.mem_cons_of_mem _ hm))
    have hk := h k ids (List.mem_cons_self ..)
    by_cases hdue : nextCheck f (IntoInt.toInt k) ≤ t
    · refine ⟨ids.filterMap (fun id => alLookup id items) ++ acc, ?_⟩
      simp [dueAux, hk, hacc, hdue]
    · exact ⟨acc, by simp [dueAux, hk, hacc, hdue]⟩

theorem mem_dueAux {items : List (Id × Item)} {f t : Int}
    {bs : List (Interval × List Id)} {res : List Item}
    (h : dueAux items f t bs = some res) (x : Item) :
    x ∈ res ↔ ∃ k ids, (k, ids) ∈ bs ∧ nextCheck f (IntoInt.toInt k) ≤ t ∧
      ∃ id, id ∈ ids ∧ alLookup id items = some x := by
  induction bs generalizing res with
  | nil =>
    simp only [dueAux, Option.some_inj] at h
    subst h
    simp
  | cons p rest ih =>
    obtain ⟨k, ids⟩ := p
    by_cases hz : IntoInt.toInt k = 0
    · simp [dueAux, hz] at h
    · rcases hrest : dueAux items f t rest with _ | acc
      · simp only [dueAux, if_neg hz, hrest] at h
        cases h
      · by_cases hdue : nextCheck f (IntoInt.toInt k) ≤ t
        · have hres : res = ids.filterMap (fun id => alLookup id items) ++ acc := by
            simp only [dueAux, if_neg hz, hrest, if_pos hdue] at h
            exact (Option.some_inj.mp h).symm
          subst hres
          simp only [List.mem_append, List.mem_filterMap, ih hrest]
          constructor
          · rintro (⟨id, hid, hlook⟩ | ⟨k', ids', hm, hd, id, hid, hlook⟩)
            · exact ⟨k, ids, List.mem_cons_self .., hdue, id, hid, hlook⟩
            · exact ⟨k', ids', List.mem_cons_of_mem _ hm, hd, id, hid, hlook⟩
          · rintro ⟨k', ids', hm, hd, id, hid, hlook⟩
            rcases List.mem_cons.mp hm with heq | hm'
            · obtain ⟨rfl, rfl⟩ := Prod.mk.injEq .. ▸ heq
              exact Or.inl ⟨id, hid, hlook⟩
            · exact Or.inr ⟨k', ids', hm', hd, id, hid, hlook⟩
        · have hres : res = acc := by
            simp only [dueAux, if_neg hz, hrest, if_neg hdue] at h
            exact (Option.some_inj.mp h).symm
          subst hres
          rw [ih hrest]
          constructor
          · rintro ⟨k', ids', hm, hd, id, hid, hlook⟩
            exact ⟨k', ids', List.mem_cons_of_mem _ hm, hd, id, hid, hlook⟩
          · rintro ⟨k', ids', hm, hd, id, hid, hlook⟩
            rcases List.mem_cons.mp hm with heq | hm'
            · obtain ⟨rfl, rfl⟩ := Prod.mk.injEq .. ▸ heq
              exact absurd hd hdue
            · exact ⟨k', ids', hm', hd, id, hid, hlook⟩

/-! ## Arithmetic of the next-check computation -/

theorem nextCheck_zero_of_pos {k : Int} (hk : 0 < k) : nextCheck 0 k = 0 := by
  unfold nextCheck
  have h0 : (0 + k - 1) = k - 1 := by ring
  rw [h0, Int.tdiv_eq_ediv (by omega) hk.le,
    Int.ediv_eq_zero_of_lt (by omega) (by omega), zero_mul]

/-- For a positive interval `k` and `0 ≤ f`, the bucket test
`nextCheck f k ≤ t` holds exactly when some multiple of `k` lies in the
closed window `[f, t]` (`n = 0`, multiple `0`, included). -/
theorem nextCheck_le_iff {f t k : Int} (hk : 0 < k) (hf : 0 ≤ f) :
    nextCheck f k ≤ t ↔ ∃ n : Int, f ≤ n * k ∧ n * k ≤ t := by
  have hfk : 0 ≤ f + k - 1 := by omega
  have htd : (f + k - 1).tdiv k = (f + k - 1) / k := Int.tdiv_eq_ediv hfk hk.le
  have hdm := Int.ediv_add_emod (f + k - 1) k
  have hr0 : 0 ≤ (f + k - 1) % k := Int.emod_nonneg _ (by omega)
  have hrk : (f + k - 1) % k < k := Int.emod_lt_of_pos _ hk
  have hcomm : ((f + k - 1) / k) * k = k * ((f + k - 1) / k) := mul_comm ..
  have hMk_ge : f ≤ ((f + k - 1) / k) * k := by
    rw [hcomm]
    linarith
  have hmin : ∀ n : Int, f ≤ n * k → (f + k - 1) / k ≤ n := by
    intro n hn
    by_contra hlt
    push_neg at hlt
    have h1 : n * k ≤ ((f + k - 1) / k - 1) * k :=
      mul_le_mul_of_nonneg_right (by omega) hk.le
    have h2 : ((f + k - 1) / k - 1) * k = k * ((f + k - 1) / k) - k := by ring
    linarith
  unfold nextCheck
  rw [htd]
  constructor
  · intro h
    exact ⟨(f + k - 1) / k, hMk_ge, h⟩
  · rintro ⟨n, hn1, hn2⟩
    have := mul_le_mul_of_nonneg_right (hmin n hn1) hk.le
    linarith

/-! ## The exact form of invariant I1 -/

/-- The spec's invariant I1 in exact form: in addition to `Inv`, every id
stored in any bucket is live and registered with that bucket's interval
(no stale entries).  `Schedule::insert` does *not* preserve this. -/
structure ExactInv (s : Schedule Id Interval Item) extends Inv s : Prop where
  bucket_exact : ∀ k b id, alLookup k s.intervals = some b → id ∈ b →
    ∃ item, alLookup id s.items = some item ∧ Schedulable.get_interval item = k

/-- Inserting a single item into the empty schedule yields a state
satisfying the exact invariant. -/
theorem exactInv_single (item : Item) :
    ExactInv ((Schedule.new : Schedule Id Interval Item).insert item) := by
  have hstate : (Schedule.new : Schedule Id Interval Item).insert item =
      ⟨[(Schedulable.get_id item, item)],
       [(Schedulable.get_interval item, [Schedulable.get_id item])]⟩ := rfl
  rw [hstate]
  refine ⟨⟨?_, ?_, ?_, ?_, ?_, ?_⟩, ?_⟩
  · simp
  · simp
  · intro k' b h
    simp only [alLookup] at h
    by_cases hkk : Schedulable.get_interval item = k'
    · rw [if_pos hkk] at h
      rw [← Option.some_inj.mp h]
      simp
    · rw [if_neg hkk] at h
      cases h
  · intro k' b h
    simp only [alLookup] at h
    by_cases hkk : Schedulable.get_interval item = k'
    · rw [if_pos hkk] at h
      rw [← Option.some_inj.mp h]
      simp
    · rw [if_neg hkk] at h
      cases h
  · intro id' item' h
    simp only [alLookup] at h
    by_cases hid : Schedulable.get_id item = id'
    · rw [if_pos hid] at h
      rw [← Option.some_inj.mp h]
      exact hid
    · rw [if_neg hid] at h
      cases h
  · intro id' item' h
    simp only [alLookup] at h
    by_cases hid : Schedulable.get_id item = id'
    · rw [if_pos hid] at h
      rw [← Option.some_inj.mp h]
      refine ⟨[Schedulable.get_id item], ?_, by rw [← hid]; simp⟩
      simp [alLookup]
    · rw [if_neg hid] at h
      cases h
  · intro k' b id' hb hidb
    simp only [alLookup] at hb
    by_cases hkk : Schedulable.get_interval item = k'
    · rw [if_pos hkk] at hb
      rw [← Option.some_inj.mp hb] at hidb
      have hid : id' = Schedulable.get_id item := by simpa using hidb
      subst hid
      exact ⟨item, by simp [alLookup], hkk⟩
    · rw [if_neg hkk] at hb
      cases hb

/-! ## Claims about the scheduling registry -/

/-- C1: re-inserting id 1 (registered with interval 30) with interval 60
leaves id 1 in the old interval-30 bucket — the bucket is neither purged
of the id nor pruned, contradicting the claimed full-replace semantics.
This evaluates the code at the failing input. -/
theorem c1_replace_leaves_stale_old_bucket :
    alLookup 30 ((Schedule.run ([.ins ⟨1, 30⟩] : List (Op Int Task))).insert
      ⟨1, 60⟩).intervals = some [1] ∧
    alLookup 60 ((Schedule.run ([.ins ⟨1, 30⟩] : List (Op Int Task))).insert
      ⟨1, 60⟩).intervals = some [1] ∧
    alLookup 1 ((Schedule.run ([.ins ⟨1, 30⟩] : List (Op Int Task))).insert
      ⟨1, 60⟩).items = some ⟨1, 60⟩ := by
  refine ⟨?_, ?_, ?_⟩ <;> decide

/-- C2: the state reached by `insert{id 1, interval 30}` followed by
`insert{id 1, interval 60}` is reachable, yet id 1 is simultaneously a
member of the interval-30 bucket and of the interval-60 bucket, so the
claimed invariant I1 ("each identifier appears in exactly one interval
bucket") fails on a reachable state.  This evaluates the code at the
failing input. -/
theorem c2_i1_fails_on_reachable_state :
    Schedule.Reachable (Schedule.run ([.ins ⟨1, 30⟩, .ins ⟨1, 60⟩] : List (Op Int Task))) ∧
    alLookup 30 (Schedule.run ([.ins ⟨1, 30⟩, .ins ⟨1, 60⟩] : List (Op Int Task))).intervals
      = some [1] ∧
    alLookup 60 (Schedule.run ([.ins ⟨1, 30⟩, .ins ⟨1, 60⟩] : List (Op Int Task))).intervals
      = some [1] ∧
    alLookup 1 (Schedule.run ([.ins ⟨1, 30⟩, .ins ⟨1, 60⟩] : List (Op Int Task))).items
      = some ⟨1, 60⟩ ∧ (30 : Int) ≠ 60 := by
  refine ⟨⟨[.ins ⟨1, 30⟩, .ins ⟨1, 60⟩], rfl⟩, ?_, ?_, ?_, ?_⟩ <;> decide

/-- C3 counterexample: the item with interval 10 IS returned by
`get_due(10, 10)` (as the claim's own concrete example and the source's
`get_due_on_boundary` test state), yet no integer `n` satisfies the
claimed condition `n*k > from ∧ n*k ≤ to` there — the claimed "if and
only if" is false at this input. -/
theorem c3_counterexample :
    (∃ res, (Schedule.run ([.ins ⟨1, 10⟩] : List (Op Int Task))).get_due 10 10 = some res ∧
      (⟨1, 10⟩ : Task) ∈ res) ∧
    ¬ ∃ n : Int, 10 < n * 10 ∧ n * 10 ≤ 10 := by
  constructor
  · exact ⟨[⟨1, 10⟩], by decide, by decide⟩
  · rintro ⟨n, h1, h2⟩
    omega

/-- C3 (amended): for a registry satisfying invariant I1 (exact bucket
contents), a registered item with interval `k > 0` and a window
`0 ≤ from ≤ to`, the item is returned by `get_due(from, to)` iff some
multiple `n*k` (n an integer, `n = 0` included) satisfies
`from ≤ n*k ≤ to` — the window is closed at `from`, not open. -/
theorem c3_due_iff_multiple_in_closed_window {s : Schedule Id Interval Item}
    (hs : ExactInv s) {id : Id} {item : Item}
    (hitem : alLookup id s.items = some item) {f t : Int}
    (hf : 0 ≤ f) (hft : f ≤ t)
    (hk : 0 < IntoInt.toInt (Schedulable.get_interval item))
    {res : List Item} (hres : s.get_due f t = some res) :
    item ∈ res ↔ ∃ n : Int,
      f ≤ n * IntoInt.toInt (Schedulable.get_interval item) ∧
        n * IntoInt.toInt (Schedulable.get_interval item) ≤ t := by
  have hres' : dueAux s.items f t s.intervals = some res := hres
  rw [mem_dueAux hres' item]
  constructor
  · rintro ⟨k', ids, hmem, hdue, id', hid', hlook⟩
    have hbucket : alLookup k' s.intervals = some ids :=
      alLookup_of_mem_nodup hs.intervals_keys_nodup hmem
    obtain ⟨item2, hitem2, hint2⟩ := hs.bucket_exact k' ids id' hbucket hid'
    have : item2 = item := Option.some_inj.mp (hitem2.symm.trans hlook)
    subst this
    rw [hint2] at hk ⊢
    exact (nextCheck_le_iff hk hf).mp hdue
  · rintro ⟨n, hn1, hn2⟩
    obtain ⟨b, hb, hidb⟩ := hs.live_in_bucket id item hitem
    refine ⟨Schedulable.get_interval item, b, alLookup_mem hb, ?_, id, hidb, hitem⟩
    exact (nextCheck_le_iff hk hf).mpr ⟨n, hn1, hn2⟩

/-- C3 witness: the amended equivalence evaluated at the single-item
registry with interval 10 and the window `(10, 10)`: membership holds
and so does the amended multiple condition (with `n = 1`). -/
theorem c3_amended_witness :
    ((⟨1, 10⟩ : Task) ∈ [(⟨1, 10⟩ : Task)] ↔
      ∃ n : Int, 10 ≤ n * 10 ∧ n * 10 ≤ 10) :=
  c3_due_iff_multiple_in_closed_window (exactInv_single (⟨1, 10⟩ : Task))
    (by decide : alLookup (1 : Int)
      ((Schedule.new : Schedule Int Int Task).insert ⟨1, 10⟩).items = some ⟨1, 10⟩)
    (by decide : (0 : Int) ≤ 10) (by decide : (10 : Int) ≤ 10)
    (by decide : (0 : Int) < 10)
    (by decide : ((Schedule.new : Schedule Int Int Task).insert ⟨1, 10⟩).get_due 10 10
      = some [⟨1, 10⟩])

/-- C5: the reachable state produced by `insert{id 1, interval 10}` then
`insert{id 1, interval 5}` makes `get_due(1, 10)` return the same item
twice (once through the stale interval-10 bucket and once through the
interval-5 bucket), contradicting the claimed at-most-once result.
This evaluates the code at the failing input. -/
theorem c5_get_due_returns_item_twice :
    Schedule.Reachable (Schedule.run ([.ins ⟨1, 10⟩, .ins ⟨1, 5⟩] : List (Op Int Task))) ∧
    (Schedule.run ([.ins ⟨1, 10⟩, .ins ⟨1, 5⟩] : List (Op Int Task))).get_due 1 10
      = some [⟨1, 5⟩, ⟨1, 5⟩] ∧
    List.count (⟨1, 5⟩ : Task) [(⟨1, 5⟩ : Task), ⟨1, 5⟩] = 2 := by
  refine ⟨⟨[.ins ⟨1, 10⟩, .ins ⟨1, 5⟩], rfl⟩, ?_, ?_⟩ <;> decide

/-- C8: on every reachable state an interval key has a non-empty id set
(I2), and removing the last identifier stored under an interval removes
that interval key entirely from `intervals`. -/
theorem c8_nonempty_buckets_and_prune {s : Schedule Id Interval Item}
    (hr : s.Reachable) :
    (∀ k b, alLookup k s.intervals = some b → b ≠ []) ∧
    (∀ id item, alLookup id s.items = some item →
      alLookup (Schedulable.get_interval item) s.intervals = some [id] →
      alLookup (Schedulable.get_interval item) (s.remove id).intervals = none) := by
  have hinv := inv_of_reachable hr
  refine ⟨hinv.buckets_ne_nil, ?_⟩
  intro id item hitem hbucket
  have hint : (s.remove id).intervals =
      alErase (Schedulable.get_interval item) s.intervals :=
    Schedule.remove_intervals_of_prune s id item [id] hitem hbucket (by simp)
      (by simp [setErase])
  rw [hint]
  exact alLookup_alErase_self hinv.intervals_keys_nodup

/-- C8 witness: the singleton registry `{id 1, interval 30}` is
reachable, its sole bucket is non-empty, and removing id 1 prunes the
interval-30 key entirely. -/
theorem c8_witness :
    ([(1 : Int)] ≠ ([] : List Int)) ∧
    alLookup 30 ((Schedule.run ([.ins ⟨1, 30⟩] : List (Op Int Task))).remove 1).intervals
      = none := by
  have h := c8_nonempty_buckets_and_prune
    (⟨[.ins ⟨1, 30⟩], rfl⟩ :
      Schedule.Reachable (Schedule.run ([.ins ⟨1, 30⟩] : List (Op Int Task))))
  exact ⟨h.1 30 [1] (by decide), h.2 1 ⟨1, 30⟩ (by decide) (by decide)⟩

/-- C9 counterexample: a reachable registry in which every registered
item has a positive interval (the sole item has interval 5), yet
`get_due(0, 5)` does not return every registered item: a stale
zero-interval bucket left behind by a replacing insert makes the due
query hit the division by zero (result `none`) before producing
anything. -/
theorem c9_counterexample :
    Schedule.Reachable (Schedule.run ([.ins ⟨1, 0⟩, .ins ⟨1, 5⟩] : List (Op Int Task))) ∧
    (∀ p ∈ (Schedule.run ([.ins ⟨1, 0⟩, .ins ⟨1, 5⟩] : List (Op Int Task))).items,
      0 < p.2.interval) ∧
    (Schedule.run ([.ins ⟨1, 0⟩, .ins ⟨1, 5⟩] : List (Op Int Task))).get_due 0 5
      = none := by
  refine ⟨⟨[.ins ⟨1, 0⟩, .ins ⟨1, 5⟩], rfl⟩, ?_, ?_⟩ <;> decide

/-- C9 (amended): on every reachable state whose interval *buckets* all
have positive intervals, `get_due(0, to)` with `to ≥ 0` returns every
registered item: the computed next check is `0` for every positive
interval, so every bucket is classified as due. -/
theorem c9_from_zero_returns_every_item {s : Schedule Id Interval Item}
    (hr : s.Reachable)
    (hpos : ∀ k ids, (k, ids) ∈ s.intervals → 0 < IntoInt.toInt k)
    {t : Int} (ht : 0 ≤ t) {id : Id} {item : Item}
    (hitem : alLookup id s.items = some item) :
    ∃ res, s.get_due 0 t = some res ∧ item ∈ res := by
  have hinv := inv_of_reachable hr
  obtain ⟨res, hres⟩ : ∃ res, dueAux s.items 0 t s.intervals = some res :=
    dueAux_isSome_of_ne_zero (fun k ids hm => (hpos k ids hm).ne')
  refine ⟨res, hres, ?_⟩
  obtain ⟨b, hb, hidb⟩ := hinv.live_in_bucket id item hitem
  have hmem := alLookup_mem hb
  have hkpos := hpos _ _ hmem
  rw [mem_dueAux hres item]
  exact ⟨Schedulable.get_interval item, b, hmem,
    by rw [nextCheck_zero_of_pos hkpos]; exact ht, id, hidb, hitem⟩

/-- C9 witness: the registry holding only `{id 1, interval 7}` returns
that item for `get_due(0, 3)` although the window is shorter than the
interval. -/
theorem c9_witness :
    ∃ res, (Schedule.run ([.ins ⟨1, 7⟩] : List (Op Int Task))).get_due 0 3 = some res ∧
      (⟨1, 7⟩ : Task) ∈ res := by
  refine c9_from_zero_returns_every_item
    (⟨[.ins ⟨1, 7⟩], rfl⟩ :
      Schedule.Reachable (Schedule.run ([.ins ⟨1, 7⟩] : List (Op Int Task)))) ?_
    (by decide : (0 : Int) ≤ 3)
    (by decide : alLookup (1 : Int)
      (Schedule.run ([.ins ⟨1, 7⟩] : List (Op Int Task))).items = some ⟨1, 7⟩)
  intro k ids hm
  have hm' : (k, ids) ∈ [((7 : Int), [(1 : Int)])] := hm
  rw [List.mem_singleton] at hm'
  obtain ⟨rfl, rfl⟩ := Prod.mk.injEq .. ▸ hm'
  decide

/-- C10: `insert` performs no interval validation — an item whose
interval converts to 0 is accepted and registered — and on any reachable
state holding a zero-interval item every `get_due` call reaches the
unguarded division by zero and panics (modelled as `none`). -/
theorem c10_zero_interval_accepted_then_due_panics
    (s : Schedule Id Interval Item) (item : Item)
    (hz : IntoInt.toInt (Schedulable.get_interval item) = 0) :
    alLookup (Schedulable.get_id item) (s.insert item).items = some item ∧
    (∀ s' : Schedule Id Interval Item, s'.Reachable →
      ∀ id it, alLookup id s'.items = some it →
      IntoInt.toInt (Schedulable.get_interval it) = 0 →
      ∀ f t, s'.get_due f t = none) := by
  constructor
  · rw [Schedule.insert_items]
    exact alLookup_alInsert_self ..
  · intro s' hr id it hitem hz' f t
    have hinv := inv_of_reachable hr
    obtain ⟨b, hb, hidb⟩ := hinv.live_in_bucket id it hitem
    exact dueAux_none_of_zero (alLookup_mem hb) hz'

/-- C10 witness: inserting `{id 1, interval 0}` into the empty registry
registers it, and `get_due(1, 10)` on the resulting reachable state
panics (returns `none` in the model). -/
theorem c10_witness :
    alLookup 1 ((Schedule.new : Schedule Int Int Task).insert ⟨1, 0⟩).items
      = some ⟨1, 0⟩ ∧
    (Schedule.run ([.ins ⟨1, 0⟩] : List (Op Int Task))).get_due 1 10 = none := by
  have h := c10_zero_interval_accepted_then_due_panics
    (Schedule.new : Schedule Int Int Task) (⟨1, 0⟩ : Task) (by decide)
  exact ⟨h.1, h.2 (Schedule.run [.ins ⟨1, 0⟩]) ⟨[.ins ⟨1, 0⟩], rfl⟩ 1 ⟨1, 0⟩
    (by decide) (by decide) 1 10⟩

/-! ## The monitor data model (`src/monitor/models`, `src/monitor/errors.rs`)

Durations (`f32` seconds in the source) are modelled as abstract `Nat`
readings supplied by the environment; none of the properties proved here
inspects their numeric value.  `curl::Error` is opaque in the source and
is modelled by an opaque numeric code. -/

/-- An opaque transport-level error (`curl::Error`). -/
structure CurlError where
  code : Nat
deriving DecidableEq

/-- Models `HttpError` from `src/monitor/errors.rs`.  Status codes are the `u16`
values the source compares and stores. -/
inductive HttpError
  | StatusMismatch (expected actual : Nat)
  | KeywordNotFound (keyword : String)
  | Unknown (error : CurlError)
deriving DecidableEq

/-- Models `PingError` from `src/monitor/errors.rs`.  The DNS resolver error is
modelled by its message string. -/
inductive PingError
  | Dns (message : String)
  | NoReply (addr : String)
  | Unreachable
deriving DecidableEq

/-- Models `CollectorError`: it tags which probe family produced the error. -/
inductive CollectorError
  | Ping (error : PingError)
  | Http (error : HttpError)
deriving DecidableEq

/-- Models `PingData`: DNS-lookup duration and round-trip time. -/
structure PingData where
  dns_lookup : Nat
  ping : Nat
deriving DecidableEq

/-- Models `HttpData`: the four reported sub-timings. -/
structure HttpData where
  dns_lookup : Nat
  connect : Nat
  tls_handshake : Nat
  data_transfer : Nat
deriving DecidableEq

/-- Models `Data`: the success payload of a measurement. -/
inductive Data
  | Ping (d : PingData)
  | Http (d : HttpData)
deriving DecidableEq

/-- Models `Measurement` from `src/monitor/models/measurement.rs`. -/
structure Measurement where
  timestamp : Int
  monitor_id : Int
  data : Option Data
  error : Option CollectorError
deriving DecidableEq

/-- Models `Header` from `src/monitor/models/monitor.rs`. -/
structure Header where
  name : String
  value : String
deriving DecidableEq

/-- Models `PingConfig`. -/
structure PingConfig where
  check_frequency : Int
  confirmation_period : Int
  recovery_period : Int
  timeout : Int
deriving DecidableEq

/-- Models `HttpConfig`; `timeout` and `expected_status_code` are `i32` in the
source, `port` a `u16`. -/
structure HttpConfig where
  check_frequency : Int
  confirmation_period : Int
  recovery_period : Int
  timeout : Int
  method : String
  protocol : String
  port : Option Nat
  path : Option String
  body : Option String
  keyword : Option String
  expected_status_code : Int
  follow_redirects : Bool
  keep_cookies_on_redirects : Bool
  header : Option Header
deriving DecidableEq

/-- Models `Config`: exactly one of the two probe configurations. -/
inductive Config
  | Ping (config : PingConfig)
  | Http (config : HttpConfig)
deriving DecidableEq

/-- Models `Monitor`. -/
structure Monitor where
  id : Int
  host : String
  config : Config
deriving DecidableEq

/-- A computation that either returns a value or unwinds with a Rust
panic carrying the given message. -/
inductive Outcome (α : Type)
  | returns (val : α)
  | diverges (message : String)
deriving DecidableEq

/-! ## The HTTP collector (`src/monitor/collectors/http.rs`) -/

/-- Substring test on character lists (Rust `str::contains`). -/
def strContainsChars : List Char → List Char → Bool
  | [], needle => needle.isEmpty
  | c :: rest, needle => needle.isPrefixOf (c :: rest) || strContainsChars rest needle

/-- Rust `haystack.contains(needle)`. -/
def strContains (haystack needle : String) : Bool :=
  strContainsChars haystack.toList needle.toList

/-- Whether `config.method.to_lowercase()` matches one of the five arms
of the `match` in `Http::measure` (ASCII lowercasing, which is all the
method strings exercise); any other method hits
`unimplemented!("Unimplemented HTTP method")`. -/
def methodOk (method : String) : Bool :=
  let m := method.toList.map Char.toLower
  m = "get".toList || m = "post".toList || m = "put".toList ||
    m = "patch".toList || m = "head".toList

deriving instance DecidableEq for Except

/-- The environment of one HTTP probe call: the outcomes of every
fallible or blocking libcurl interaction, in the order the source
performs them. `setup_error` covers the `?`-propagated failures of the
handle configuration calls (`url`, `http_headers`, `timeout`,
`cookie_file`, `follow_location`, `http_version`), `late_setup_error`
those of the method-selection calls and `post_fields_copy` (reached only
past the supported-method check). -/
structure HttpEnv where
  setup_error : Option CurlError
  late_setup_error : Option CurlError
  join_ok : Bool
  perform : Except CurlError Unit
  response_code : Except CurlError Nat
  response_body : String
  namelookup_time : Except CurlError Nat
  connect_time : Except CurlError Nat
  appconnect_time : Except CurlError Nat
  total_time : Except CurlError Nat
  starttransfer_time : Except CurlError Nat
deriving DecidableEq

/-- The success tail of `Http::measure`: reads the four timings (each
read can fail with an opaque curl error) and computes
`total_time - starttransfer_time`, whose `Duration` subtraction panics
on underflow. -/
def httpCollect (env : HttpEnv) : Outcome (Except HttpError Data) :=
  match env.namelookup_time with
  | .error e => .returns (.error (.Unknown e))
  | .ok dns =>
    match env.connect_time with
    | .error e => .returns (.error (.Unknown e))
    | .ok connect =>
      match env.appconnect_time with
      | .error e => .returns (.error (.Unknown e))
      | .ok tls =>
        match env.total_time with
        | .error e => .returns (.error (.Unknown e))
        | .ok total =>
          match env.starttransfer_time with
          | .error e => .returns (.error (.Unknown e))
          | .ok start =>
            if total < start then .diverges "overflow when subtracting durations"
            else .returns (.ok (.Http ⟨dns, connect, tls, total - start⟩))

/-- Models `Http::measure` for a given environment.  The `as u16` casts of the
source are the `% 65536` reductions. -/
def Http.measure (host : String) (config : HttpConfig) (env : HttpEnv) :
    Outcome (Except HttpError Data) :=
  match env.setup_error with
  | some e => .returns (.error (.Unknown e))
  | none =>
    if !methodOk config.method then .diverges "Unimplemented HTTP method"
    else
      match env.late_setup_error with
      | some e => .returns (.error (.Unknown e))
      | none =>
        if !env.join_ok then .diverges "curl request"
        else
          match env.perform with
          | .error e => .returns (.error (.Unknown e))
          | .ok _ =>
            match env.response_code with
            | .error e => .returns (.error (.Unknown e))
            | .ok code =>
              let response_status := code % 65536
              let expected_status := (config.expected_status_code.emod 65536).toNat
              if response_status ≠ expected_status then
                .returns (.error (.StatusMismatch expected_status response_status))
              else
                match config.keyword with
                | some keyword =>
                  if !strContains env.response_body keyword then
                    .returns (.error (.KeywordNotFound keyword))
                  else httpCollect env
                | none => httpCollect env

/-! ## The ping collector (`src/monitor/collectors/ping.rs`) -/

/-- What `results.recv()` yields inside the blocking ping task. -/
inductive PingRecv
  | receive (rtt : Nat)
  | idle (addr : String)
  | recvError
deriving DecidableEq

/-- The environment of one ping probe call: the DNS lookup outcome (error
message, or the resolved addresses), its measured duration, whether
`Pinger::new(..).unwrap()` and the task join succeed, and the channel
result. -/
structure PingEnv where
  lookup_result : Except String (List String)
  lookup_duration : Nat
  pinger_ok : Bool
  ping_result : PingRecv
deriving DecidableEq

/-- Models `Ping::measure` for a given environment. -/
def Ping.measure (host : String) (config : PingConfig) (env : PingEnv) :
    Outcome (Except PingError Data) :=
  match env.lookup_result with
  | .error e => .returns (.error (.Dns e))
  | .ok addrs =>
    match addrs.head? with
    | none => .returns (.error (.Dns "No records found"))
    | some _ =>
      if !env.pinger_ok then .diverges "ping request"
      else
        match env.ping_result with
        | .receive rtt => .returns (.ok (.Ping ⟨env.lookup_duration, rtt⟩))
        | .idle addr => .returns (.error (.NoReply addr))
        | .recvError => .returns (.error .Unreachable)

/-! ## `Monitor::measure` (`src/monitor/measure.rs`) -/

/-- The environment of one `Monitor::measure` call: the completion
timestamp reading and the environment handed to whichever probe the
configuration selects. -/
structure MeasureEnv where
  now : Int
  ping_env : PingEnv
  http_env : HttpEnv
deriving DecidableEq

/-- The probe dispatch of `Monitor::measure`: select the collector by
configuration variant and wrap its error into `CollectorError` (the
`map_err(|error| error.into())` calls). -/
def Monitor.probeResult (m : Monitor) (env : MeasureEnv) :
    Outcome (Except CollectorError Data) :=
  match m.config with
  | .Ping config =>
    match Ping.measure m.host config env.ping_env with
    | .diverges msg => .diverges msg
    | .returns (.ok d) => .returns (.ok d)
    | .returns (.error e) => .returns (.error (.Ping e))
  | .Http config =>
    match Http.measure m.host config env.http_env with
    | .diverges msg => .diverges msg
    | .returns (.ok d) => .returns (.ok d)
    | .returns (.error e) => .returns (.error (.Http e))

/-- Models `Monitor::measure`: build the measurement with both fields empty,
then fill exactly one of them from the probe result
(`if result.is_ok() { .. } else { .. }`).  A probe panic unwinds
through `measure` unhandled. -/
def Monitor.measure (m : Monitor) (env : MeasureEnv) : Outcome Measurement :=
  match m.probeResult env with
  | .diverges msg => .diverges msg
  | .returns (.ok d) => .returns ⟨env.now, m.id, some d, none⟩
  | .returns (.error e) => .returns ⟨env.now, m.id, none, some e⟩

/-! ## Concrete monitor fixtures -/

/-- A probe environment in which every transport interaction succeeds:
response 200 with body "index page", all timings readable. -/
def httpEnvOk : HttpEnv :=
  ⟨none, none, true, .ok (), .ok 200, "index page", .ok 1, .ok 2, .ok 3, .ok 9, .ok 4⟩

/-- Same environment but the server answers with status 400. -/
def httpEnv400 : HttpEnv :=
  ⟨none, none, true, .ok (), .ok 400, "", .ok 1, .ok 2, .ok 3, .ok 9, .ok 4⟩

/-- Same environment but the 200 response body does not contain "index". -/
def httpEnvNoKeyword : HttpEnv :=
  ⟨none, none, true, .ok (), .ok 200, "error", .ok 1, .ok 2, .ok 3, .ok 9, .ok 4⟩

/-- A ping environment in which resolution and the echo succeed. -/
def pingEnvOk : PingEnv := ⟨.ok ["127.0.0.1"], 1, true, .receive 5⟩

/-- A measurement environment built from the succeeding probe
environments. -/
def measureEnvOk : MeasureEnv := ⟨1000, pingEnvOk, httpEnvOk⟩

/-- The HTTP configuration of the repository's `measure_http_with_data`
test: GET, expected status 200, keyword "index". -/
def httpConfigIndex : HttpConfig :=
  ⟨60, 1, 1, 3, "GET", "HTTP", none, some "/check", none, some "index", 200,
   false, false, none⟩

/-- The same configuration with an HTTP method outside the five arms the
collector implements. -/
def httpConfigDelete : HttpConfig :=
  ⟨60, 1, 1, 3, "DELETE", "HTTP", none, some "/check", none, none, 200,
   false, false, none⟩

/-- An HTTP monitor using `httpConfigIndex`. -/
def monitorIndex : Monitor := ⟨1, "127.0.0.1", .Http httpConfigIndex⟩

/-- An HTTP monitor using the unsupported method "DELETE". -/
def monitorDelete : Monitor := ⟨1, "127.0.0.1", .Http httpConfigDelete⟩

/-! ## Claims about the measurement protocol -/

/-- C4 counterexample: with the HTTP method "DELETE" — outside the five
arms the collector implements — the probe panics in the
`unimplemented!` branch, and `Monitor::measure` propagates the panic
instead of returning a measurement. -/
theorem c4_counterexample :
    ¬ ∃ meas, Monitor.measure monitorDelete measureEnvOk = .returns meas := by
  rintro ⟨meas, h⟩
  have h2 : Monitor.measure monitorDelete measureEnvOk
      = .diverges "Unimplemented HTTP method" := by decide
  rw [h2] at h
  cases h

/-- C4 (amended): whenever the invoked probe itself returns — success or
classified error — rather than panicking, `Monitor::measure` returns
exactly one measurement and every returned probe failure is captured in
the measurement's error field.  (A probe panic, e.g. the unsupported
HTTP method branch, propagates to the caller instead.) -/
theorem c4_measure_captures_returned_failures (m : Monitor) (env : MeasureEnv)
    (r : Except CollectorError Data) (h : m.probeResult env = .returns r) :
    ∃ meas, Monitor.measure m env = .returns meas ∧
      ((∃ d, r = .ok d ∧ meas.data = some d ∧ meas.error = none) ∨
       (∃ e, r = .error e ∧ meas.data = none ∧ meas.error = some e)) := by
  cases r with
  | ok d =>
    refine ⟨⟨env.now, m.id, some d, none⟩, ?_, Or.inl ⟨d, rfl, rfl, rfl⟩⟩
    unfold Monitor.measure
    rw [h]
  | error e =>
    refine ⟨⟨env.now, m.id, none, some e⟩, ?_, Or.inr ⟨e, rfl, rfl, rfl⟩⟩
    unfold Monitor.measure
    rw [h]

/-- C4 witness: the amended statement instantiated on a succeeding HTTP
probe invocation. -/
theorem c4_witness :
    Monitor.probeResult monitorIndex measureEnvOk
      = .returns (.ok (.Http ⟨1, 2, 3, 5⟩)) ∧
    ∃ meas, Monitor.measure monitorIndex measureEnvOk = .returns meas ∧
      ((∃ d, (Except.ok (Data.Http ⟨1, 2, 3, 5⟩) : Except CollectorError Data)
          = .ok d ∧ meas.data = some d ∧ meas.error = none) ∨
       (∃ e, (Except.ok (Data.Http ⟨1, 2, 3, 5⟩) : Except CollectorError Data)
          = .error e ∧ meas.data = none ∧ meas.error = some e)) :=
  ⟨by decide, c4_measure_captures_returned_failures monitorIndex measureEnvOk
    (.ok (.Http ⟨1, 2, 3, 5⟩)) (by decide)⟩

/-- C6: whenever `Monitor::measure` produces a measurement, exactly one
of its `data` and `error` fields is populated — never both, never
neither. -/
theorem c6_measurement_exclusivity (m : Monitor) (env : MeasureEnv)
    (meas : Measurement) (h : Monitor.measure m env = .returns meas) :
    (meas.data.isSome = true ∧ meas.error = none) ∨
    (meas.data = none ∧ meas.error.isSome = true) := by
  unfold Monitor.measure at h
  cases hp : m.probeResult env with
  | diverges msg =>
    rw [hp] at h
    have h2 : (Outcome.diverges msg : Outcome Measurement) = .returns meas := h
    cases h2
  | returns r =>
    rw [hp] at h
    cases r with
    | ok d =>
      have h2 : (Outcome.returns ⟨env.now, m.id, some d, none⟩ : Outcome Measurement)
          = .returns meas := h
      rw [← Outcome.returns.inj h2]
      exact Or.inl ⟨rfl, rfl⟩
    | error e =>
      have h2 : (Outcome.returns ⟨env.now, m.id, none, some e⟩ : Outcome Measurement)
          = .returns meas := h
      rw [← Outcome.returns.inj h2]
      exact Or.inr ⟨rfl, rfl⟩

/-- C6 witness: on a succeeding HTTP probe the produced measurement has
`data` populated and `error` empty. -/
theorem c6_witness :
    Monitor.measure monitorIndex measureEnvOk
      = .returns ⟨1000, 1, some (.Http ⟨1, 2, 3, 5⟩), none⟩ ∧
    (((⟨1000, 1, some (.Http ⟨1, 2, 3, 5⟩), none⟩ : Measurement).data.isSome = true ∧
      (⟨1000, 1, some (.Http ⟨1, 2, 3, 5⟩), none⟩ : Measurement).error = none) ∨
     ((⟨1000, 1, some (.Http ⟨1, 2, 3, 5⟩), none⟩ : Measurement).data = none ∧
      (⟨1000, 1, some (.Http ⟨1, 2, 3, 5⟩), none⟩ : Measurement).error.isSome = true)) :=
  ⟨by decide, c6_measurement_exclusivity monitorIndex measureEnvOk
    ⟨1000, 1, some (.Http ⟨1, 2, 3, 5⟩), none⟩ (by decide)⟩

/-- C7: on every HTTP probe invocation that obtains a final response
(handle configuration succeeded, the request was performed and the
status code was read), a final status different from the configured
expectation yields `StatusMismatch{expected, actual}` — with the `u16`
values the source casts to and compares — and a matching status with a
configured keyword absent from the response body yields
`KeywordNotFound{keyword}`. -/
theorem c7_http_error_classification (host : String) (config : HttpConfig)
    (env : HttpEnv) (code : Nat)
    (hsetup : env.setup_error = none) (hm : methodOk config.method = true)
    (hlate : env.late_setup_error = none) (hjoin : env.join_ok = true)
    (hperf : env.perform = .ok ()) (hcode : env.response_code = .ok code) :
    (code % 65536 ≠ (config.expected_status_code.emod 65536).toNat →
      Http.measure host config env = .returns (.error (.StatusMismatch
        (config.expected_status_code.emod 65536).toNat (code % 65536)))) ∧
    (∀ keyword, code % 65536 = (config.expected_status_code.emod 65536).toNat →
      config.keyword = some keyword →
      strContains env.response_body keyword = false →
      Http.measure host config env = .returns (.error (.KeywordNotFound keyword))) := by
  have hstep : Http.measure host config env =
      (if code % 65536 ≠ (config.expected_status_code.emod 65536).toNat then
        .returns (.error (.StatusMismatch
          (config.expected_status_code.emod 65536).toNat (code % 65536)))
      else
        match config.keyword with
        | some keyword =>
          if !strContains env.response_body keyword then
            .returns (.error (.KeywordNotFound keyword))
          else httpCollect env
        | none => httpCollect env) := by
    unfold Http.measure
    rw [hsetup, hm, hlate, hjoin, hperf, hcode]
    rfl
  constructor
  · intro hne
    rw [hstep, if_pos hne]
  · intro keyword heq hkw hnc
    rw [hstep, if_neg (fun hc => hc heq), hkw]
    show (if (!strContains env.response_body keyword) = true then
        Outcome.returns (Except.error (HttpError.KeywordNotFound keyword))
      else httpCollect env) = _
    rw [hnc]
    rfl

/-- C7 witness: expected status 200 against a 400 response yields
`StatusMismatch{expected: 200, actual: 400}`; keyword "index" against a
body not containing it yields `KeywordNotFound{keyword: "index"}`. -/
theorem c7_witness :
    Http.measure "127.0.0.1" httpConfigIndex httpEnv400
      = .returns (.error (.StatusMismatch 200 400)) ∧
    Http.measure "127.0.0.1" httpConfigIndex httpEnvNoKeyword
      = .returns (.error (.KeywordNotFound "index")) := by
  constructor
  · exact (c7_http_error_classification "127.0.0.1" httpConfigIndex httpEnv400 400
      rfl (by decide) rfl rfl rfl rfl).1 (by decide)
  · exact (c7_http_error_classification "127.0.0.1" httpConfigIndex httpEnvNoKeyword 200
      rfl (by decide) rfl rfl rfl rfl).2 "index" (by decide) rfl (by decide)

end Limon
